import Mathlib

/-!
Verification of the render/timing/transition pipeline of `backend/ai_services.py`.

Python floats are modelled by rationals (`ℚ`), Python ints by `ℤ`/`ℕ`,
Python strings that are only scanned character by character by `List Char`,
and fallible code (exceptions such as `IndexError`/`ValueError`) by `Option`.
Each definition is a shallow embedding of the correspondingly named Python
function.
-/

namespace AIVideoStudio

/-- One element of the `scene_entries` list handed to
`create_video_with_transitions`:
`{image_path, duration, transition_type, transition_duration}`. -/
structure SceneEntry where
  image_path : String
  duration : ℚ
  transition_type : String
  transition_duration : ℚ
deriving DecidableEq, Repr

/-- The `has_transitions` test of `create_video_with_transitions`
(ai_services.py lines 922-925): some entry, excluding the last one, has
`transition_duration > 0` and `transition_type != "cut"`. -/
def has_transitions (entries : List SceneEntry) : Bool :=
  entries.dropLast.any
    (fun e => decide (0 < e.transition_duration) && decide (e.transition_type ≠ "cut"))

/-- One element of the `filter_parts` list built by `_build_xfade_chain`:
either a two-input concat at step `i`, or an xfade at step `i` with the
chosen transition name, duration and (clamped) offset. -/
inductive FilterPart where
  | concat (i : ℕ)
  | xfade (i : ℕ) (name : String) (dur offset : ℚ)
deriving DecidableEq, Repr

/-- The condition under which step `i` of `_build_xfade_chain` concatenates
instead of cross-fading (line 1025): the consulted entry (`scene_entries[i-1]`)
is a cut or has non-positive transition duration. -/
def isCutStep (prev : SceneEntry) : Prop :=
  prev.transition_type = "cut" ∨ prev.transition_duration ≤ 0

instance (prev : SceneEntry) : Decidable (isCutStep prev) := by
  unfold isCutStep; infer_instance

/-- The xfade transition name chosen at a non-cut step (line 1033). -/
def xfadeName (prev : SceneEntry) : String :=
  if prev.transition_type = "fade_to_black" then "fadeblack" else "fade"

/-- The loop body of `_build_xfade_chain` (lines 1019-1048), producing the
`filter_parts` list.  `prev` is `scene_entries[i-1]`, `i` the current step
index, `off` the running `cumulative_offset`, and `rest` the remaining
entries `scene_entries[i:]`.  The offset of an xfade step is
`cumulative_offset + seg_dur - trans_dur`, clamped below at 0. -/
def buildFilterParts (prev : SceneEntry) (i : ℕ) (off : ℚ) :
    List SceneEntry → List FilterPart
  | [] => []
  | cur :: rest =>
    if isCutStep prev then
      .concat i :: buildFilterParts cur (i + 1) (off + prev.duration) rest
    else
      .xfade i (xfadeName prev) prev.transition_duration
          (max 0 (off + prev.duration - prev.transition_duration)) ::
        buildFilterParts cur (i + 1)
          (max 0 (off + prev.duration - prev.transition_duration)) rest

/-- The `filter_parts` list `_build_xfade_chain` builds for a whole entry
list (empty when there are fewer than two segments). -/
def xfadeFilterChain : List SceneEntry → List FilterPart
  | [] => []
  | e0 :: rest => buildFilterParts e0 1 0 rest

/-- The successive values of `cumulative_offset` after each iteration of the
`_build_xfade_chain` loop. -/
def offsetTrace (prev : SceneEntry) (off : ℚ) : List SceneEntry → List ℚ
  | [] => []
  | cur :: rest =>
    if isCutStep prev then
      (off + prev.duration) :: offsetTrace cur (off + prev.duration) rest
    else
      max 0 (off + prev.duration - prev.transition_duration) ::
        offsetTrace cur (max 0 (off + prev.duration - prev.transition_duration)) rest

/-- `cumulative_offset` values of the chain, starting from offset 0 at the
first segment. -/
def xfadeOffsets : List SceneEntry → List ℚ
  | [] => []
  | e0 :: rest => offsetTrace e0 0 rest

/-- `true` iff no xfade step of the chain clamps its offset at 0, i.e. the
`if offset < 0: offset = 0` guard (lines 1035-1036) never fires. -/
def chainClampFree (prev : SceneEntry) (off : ℚ) : List SceneEntry → Bool
  | [] => true
  | cur :: rest =>
    if isCutStep prev then
      chainClampFree cur (off + prev.duration) rest
    else
      decide (0 ≤ off + prev.duration - prev.transition_duration) &&
        chainClampFree cur (max 0 (off + prev.duration - prev.transition_duration)) rest

/-- No offset clamp fires anywhere in the chain of `entries`. -/
def clampFree : List SceneEntry → Bool
  | [] => true
  | e0 :: rest => chainClampFree e0 0 rest

/-- ffmpeg timeline semantics of the chain built by `_build_xfade_chain`:
`ext` is the duration of the running composite; a concat of the composite
with `cur` yields duration `ext + cur.duration`; an xfade of the composite
with `cur` at offset `o` yields duration `o + cur.duration`.  The offsets are
exactly those computed by the source loop. -/
def chainExtent (prev : SceneEntry) (off ext : ℚ) : List SceneEntry → ℚ
  | [] => ext
  | cur :: rest =>
    if isCutStep prev then
      chainExtent cur (off + prev.duration) (ext + cur.duration) rest
    else
      chainExtent cur (max 0 (off + prev.duration - prev.transition_duration))
        (max 0 (off + prev.duration - prev.transition_duration) + cur.duration) rest

/-- Final timeline extent of the output of `create_video_with_transitions`
(lines 927-932): the xfade chain's extent when `has_transitions` holds and
there is more than one segment, else the extent of a plain concatenation,
which is the sum of the segment durations. -/
def compositeDuration : List SceneEntry → ℚ
  | [] => 0
  | e0 :: rest =>
    if has_transitions (e0 :: rest) ∧ 1 < (e0 :: rest).length then
      chainExtent e0 0 e0.duration rest
    else
      ((e0 :: rest).map (·.duration)).sum

/-- Sum of the transition durations of the non-cut adjacent pairs, i.e. of
the entries (last one excluded) that take the xfade branch. -/
def transSum (entries : List SceneEntry) : ℚ :=
  ((entries.dropLast.filter (fun e => ¬ isCutStep e)).map (·.transition_duration)).sum

lemma dropLast_cons_cons (a b : SceneEntry) (l : List SceneEntry) :
    (a :: b :: l).dropLast = a :: (b :: l).dropLast := rfl

lemma clamp_eq_max (o : ℚ) : (if o < 0 then 0 else o) = max 0 o := by
  rcases lt_or_le o 0 with h | h
  · simp [h, max_eq_left h.le]
  · simp [not_lt.mpr h, max_eq_right h]

/-- Invariant of the xfade loop: when the running offset plus the duration of
the entry about to be consulted equals the running extent and no offset clamp
fires, the final extent is the starting extent plus the remaining segment
durations minus the transition durations of the remaining non-cut steps. -/
lemma chainExtent_eq (rest : List SceneEntry) :
    ∀ (prev : SceneEntry) (off ext : ℚ), off + prev.duration = ext →
      chainClampFree prev off rest = true →
      chainExtent prev off ext rest =
        ext + (rest.map (·.duration)).sum -
          (((prev :: rest).dropLast.filter (fun e => ¬ isCutStep e)).map
            (·.transition_duration)).sum := by
  induction rest with
  | nil =>
    intro prev off ext _ _
    simp [chainExtent]
  | cons cur rest ih =>
    intro prev off ext hinv hcf
    rw [dropLast_cons_cons]
    by_cases hcut : isCutStep prev
    · rw [chainExtent, if_pos hcut]
      rw [chainClampFree, if_pos hcut] at hcf
      rw [ih cur (off + prev.duration) (ext + cur.duration) (by rw [hinv]) hcf]
      simp [List.filter_cons, hcut]
      ring
    · rw [chainExtent, if_neg hcut]
      rw [chainClampFree, if_neg hcut] at hcf
      rcases Bool.and_eq_true_iff.mp hcf with ⟨hnn, hcf'⟩
      have hnn' : (0 : ℚ) ≤ off + prev.duration - prev.transition_duration :=
        of_decide_eq_true hnn
      have hmax : max 0 (off + prev.duration - prev.transition_duration) =
          off + prev.duration - prev.transition_duration := max_eq_right hnn'
      rw [hmax] at hcf' ⊢
      rw [ih cur (off + prev.duration - prev.transition_duration)
            (off + prev.duration - prev.transition_duration + cur.duration) rfl hcf']
      simp [List.filter_cons, hcut]
      rw [← hinv]
      ring

lemma has_transitions_elem {entries : List SceneEntry} (h : has_transitions entries = true) :
    ∃ e ∈ entries.dropLast, 0 < e.transition_duration ∧ e.transition_type ≠ "cut" := by
  rcases List.any_eq_true.mp h with ⟨e, he, hcond⟩
  rcases Bool.and_eq_true_iff.mp hcond with ⟨h1, h2⟩
  exact ⟨e, he, of_decide_eq_true h1, of_decide_eq_true h2⟩

/-- C1: for a non-empty scene-entry list, if every adjacent pair is a cut (or
has non-positive transition duration) the composited output duration is the
sum of the segment durations; and if some pair is a genuine transition and no
fade offset gets clamped at 0, the output duration is the sum of the segment
durations minus the sum of the transition durations of the non-cut pairs. -/
theorem c1_composite_output_duration (entries : List SceneEntry) (hne : entries ≠ []) :
    ((∀ e ∈ entries.dropLast, e.transition_type = "cut" ∨ e.transition_duration ≤ 0) →
      compositeDuration entries = (entries.map (·.duration)).sum) ∧
    (has_transitions entries = true → clampFree entries = true →
      compositeDuration entries = (entries.map (·.duration)).sum - transSum entries) := by
  cases entries with
  | nil => exact absurd rfl hne
  | cons e0 rest =>
    constructor
    · intro hall
      have hnt : ¬ (has_transitions (e0 :: rest) = true ∧ 1 < (e0 :: rest).length) := by
        rintro ⟨ht, -⟩
        rcases has_transitions_elem ht with ⟨e, he, hpos, htype⟩
        rcases hall e he with h | h
        · exact htype h
        · exact absurd hpos (not_lt.mpr h)
      rw [compositeDuration, if_neg hnt]
    · intro ht hcf
      rcases has_transitions_elem ht with ⟨e, he, -, -⟩
      have hrest : rest ≠ [] := by
        intro h0
        subst h0
        simp [List.dropLast] at he
      have hlen : 1 < (e0 :: rest).length := by
        cases rest with
        | nil => exact absurd rfl hrest
        | cons a l => simp
      rw [compositeDuration, if_pos ⟨ht, hlen⟩]
      rw [chainExtent_eq rest e0 0 e0.duration (by ring) hcf]
      simp [transSum]

/-- Witness for C1 at concrete inputs: an all-cut pair of entries composites
to the duration sum, and a clamp-free faded pair to the sum minus the
transition duration. -/
theorem c1_composite_output_duration_witness :
    compositeDuration [⟨"a.png", 2, "cut", 0⟩, ⟨"b.png", 3, "cut", 0⟩] = 5 ∧
    compositeDuration [⟨"a.png", 2, "fade", 1⟩, ⟨"b.png", 3, "cut", 0⟩] = 4 := by
  constructor
  · have h := (c1_composite_output_duration
      [⟨"a.png", 2, "cut", 0⟩, ⟨"b.png", 3, "cut", 0⟩]
        (by simp)).1 (by intro e he; simp at he; rw [he]; left; rfl)
    rw [h]; norm_num
  · have h := (c1_composite_output_duration
      [⟨"a.png", 2, "fade", 1⟩, ⟨"b.png", 3, "cut", 0⟩] (by simp)).2
      (by simp [has_transitions, List.dropLast])
      (by simp [clampFree, chainClampFree, isCutStep])
    rw [h]; simp [transSum, List.dropLast, List.filter_cons, isCutStep]
    norm_num

/-- Default entry used only as the out-of-range default of `List.getD`. -/
def defaultEntry : SceneEntry := ⟨"", 0, "", 0⟩

/-- Step-by-step characterization of the `_build_xfade_chain` loop: at step
`k+1` (consulting entry `k`), the new cumulative offset and the emitted
filter part are determined by the previous offset and the consulted entry. -/
lemma xchain_getD (rest : List SceneEntry) :
    ∀ (prev : SceneEntry) (off : ℚ) (i k : ℕ), k < rest.length →
      ((offsetTrace prev off rest).getD k 0 =
        (if isCutStep ((prev :: rest).getD k defaultEntry) then
          (off :: offsetTrace prev off rest).getD k 0 +
            ((prev :: rest).getD k defaultEntry).duration
        else
          max 0 ((off :: offsetTrace prev off rest).getD k 0 +
            ((prev :: rest).getD k defaultEntry).duration -
            ((prev :: rest).getD k defaultEntry).transition_duration))) ∧
      ((buildFilterParts prev i off rest).getD k (.concat 0) =
        (if isCutStep ((prev :: rest).getD k defaultEntry) then
          FilterPart.concat (i + k)
        else
          .xfade (i + k) (xfadeName ((prev :: rest).getD k defaultEntry))
            ((prev :: rest).getD k defaultEntry).transition_duration
            ((offsetTrace prev off rest).getD k 0))) := by
  induction rest with
  | nil =>
    intro prev off i k hk
    simp at hk
  | cons cur rest ih =>
    intro prev off i k hk
    by_cases hcut : isCutStep prev
    · rw [offsetTrace, if_pos hcut, buildFilterParts, if_pos hcut]
      cases k with
      | zero =>
        refine ⟨?_, ?_⟩ <;> simp only [List.getD_cons_zero, Nat.add_zero] <;>
          rw [if_pos hcut]
      | succ k =>
        have hk' : k < rest.length := by simpa using hk
        have h := ih cur (off + prev.duration) (i + 1) k hk'
        have hik : i + (k + 1) = (i + 1) + k := by omega
        simp only [List.getD_cons_succ, hik]
        exact h
    · rw [offsetTrace, if_neg hcut, buildFilterParts, if_neg hcut]
      cases k with
      | zero =>
        refine ⟨?_, ?_⟩ <;> simp only [List.getD_cons_zero, Nat.add_zero] <;>
          rw [if_neg hcut]
      | succ k =>
        have hk' : k < rest.length := by simpa using hk
        have h := ih cur (max 0 (off + prev.duration - prev.transition_duration)) (i + 1) k hk'
        have hik : i + (k + 1) = (i + 1) + k := by omega
        simp only [List.getD_cons_succ, hik]
        exact h

lemma not_cutStep_of (e : SceneEntry) (h1 : e.transition_type ≠ "cut")
    (h2 : 0 < e.transition_duration) : ¬ isCutStep e := by
  rintro (h | h)
  · exact h1 h
  · exact absurd h2 (not_lt.mpr h)

/-- Concrete scene-entry list used to refute the cut-branch wording of the
cross-fade chain claim: a cut between segments 0 and 1 with different
durations, followed by a fade. -/
def c2ex : List SceneEntry :=
  [⟨"i0.png", 1, "cut", 0⟩, ⟨"i1.png", 2, "fade", 1/2⟩, ⟨"i2.png", 3, "cut", 0⟩]

/-- C2 counterexample: for the cut transition between segments 0 and 1 of
`c2ex`, `cumulative_offset` does NOT increase by segment 1's duration (2) as
the claim states; it increases by segment 0's duration (1). -/
theorem c2_cut_advance_counterexample :
    (xfadeOffsets c2ex).getD 0 0 ≠ 0 + (c2ex.getD 1 defaultEntry).duration ∧
    (xfadeOffsets c2ex).getD 0 0 = 0 + (c2ex.getD 0 defaultEntry).duration := by
  have hv : xfadeOffsets c2ex = [1, 5/2] := by
    show offsetTrace ⟨"i0.png", 1, "cut", 0⟩ 0 _ = _
    rw [offsetTrace, if_pos (by left; rfl),
        offsetTrace, if_neg (not_cutStep_of _ (by decide) (show (0:ℚ) < 1/2 by norm_num)),
        offsetTrace]
    norm_num
  rw [hv]
  constructor
  · norm_num [c2ex, defaultEntry]
  · norm_num [c2ex, defaultEntry]

/-- C2 (amended): walking the chain left to right, for a cut transition
between segments `k` and `k+1` the segments are concatenated and
`cumulative_offset` increases by segment `k`'s duration (the outgoing
segment's, not the incoming one's); for a non-cut transition with duration
`d`, segment `k+1` is overlapped at
`offset = cumulative_offset + duration(k) - d` clamped to `≥ 0`, and
`cumulative_offset` advances to exactly that offset. -/
theorem c2_offset_recurrence (entries : List SceneEntry) (k : ℕ)
    (hk : k + 1 < entries.length) :
    (xfadeOffsets entries).getD k 0 =
      (if isCutStep (entries.getD k defaultEntry) then
        (0 :: xfadeOffsets entries).getD k 0 + (entries.getD k defaultEntry).duration
      else
        max 0 ((0 :: xfadeOffsets entries).getD k 0 +
          (entries.getD k defaultEntry).duration -
          (entries.getD k defaultEntry).transition_duration)) ∧
    (xfadeFilterChain entries).getD k (.concat 0) =
      (if isCutStep (entries.getD k defaultEntry) then
        FilterPart.concat (k + 1)
      else
        .xfade (k + 1) (xfadeName (entries.getD k defaultEntry))
          (entries.getD k defaultEntry).transition_duration
          ((xfadeOffsets entries).getD k 0)) := by
  match entries, hk with
  | e0 :: rest, hk =>
    have hk' : k < rest.length := by simpa using hk
    have h := xchain_getD rest e0 0 1 k hk'
    rw [show (1 : ℕ) + k = k + 1 from Nat.add_comm 1 k] at h
    exact h

/-- Witness for C2 (amended) at `c2ex`: the cut step advances the offset by
segment 0's duration, and the fade step advances it to the clamped overlap
offset. -/
theorem c2_offset_recurrence_witness :
    (xfadeOffsets c2ex).getD 0 0 = 1 ∧ (xfadeOffsets c2ex).getD 1 0 = 5/2 := by
  constructor
  · have h := (c2_offset_recurrence c2ex 0 (by norm_num [c2ex])).1
    rw [h, if_pos (by left; rfl)]
    norm_num [c2ex, defaultEntry]
  · have h := (c2_offset_recurrence c2ex 1 (by norm_num [c2ex])).1
    rw [h, if_neg (not_cutStep_of _ (by decide) (show (0:ℚ) < 1/2 by norm_num))]
    have hv : (xfadeOffsets c2ex).getD 0 0 = 1 := by
      rw [(c2_offset_recurrence c2ex 0 (by norm_num [c2ex])).1, if_pos (by left; rfl)]
      norm_num [c2ex, defaultEntry]
    simp only [List.getD_cons_succ, List.getD_cons_zero] at hv ⊢
    rw [hv]
    norm_num [c2ex, defaultEntry]

/-- The last entry of the list is never consulted while building the filter
chain: only the entries before it drive the loop. -/
lemma buildFilterParts_last_irrelevant (rest : List SceneEntry) :
    ∀ (prev : SceneEntry) (i : ℕ) (off : ℚ) (x y : SceneEntry),
      buildFilterParts prev i off (rest ++ [x]) =
        buildFilterParts prev i off (rest ++ [y]) := by
  induction rest with
  | nil =>
    intro prev i off x y
    by_cases hcut : isCutStep prev
    · simp [buildFilterParts, if_pos hcut]
    · simp [buildFilterParts, if_neg hcut]
  | cons cur rest ih =>
    intro prev i off x y
    have hx : (cur :: rest) ++ [x] = cur :: (rest ++ [x]) := rfl
    have hy : (cur :: rest) ++ [y] = cur :: (rest ++ [y]) := rfl
    rw [hx, hy, buildFilterParts, buildFilterParts]
    by_cases hcut : isCutStep prev
    · rw [if_pos hcut, if_pos hcut, ih cur (i + 1) (off + prev.duration) x y]
    · rw [if_neg hcut, if_neg hcut,
          ih cur (i + 1) (max 0 (off + prev.duration - prev.transition_duration)) x y]

/-- C10: the transition metadata of the final scene entry never affects the
rendered output: for two entry lists that agree except in the last entry's
`transition_type`/`transition_duration` (same image and duration), the
compositor makes the same concatenation-versus-crossfade decision
(`has_transitions`) and builds the same filter chain. -/
theorem c10_last_entry_noninterference (es : List SceneEntry) (x y : SceneEntry)
    (himg : x.image_path = y.image_path) (hdur : x.duration = y.duration) :
    has_transitions (es ++ [x]) = has_transitions (es ++ [y]) ∧
    xfadeFilterChain (es ++ [x]) = xfadeFilterChain (es ++ [y]) := by
  constructor
  · unfold has_transitions
    rw [List.dropLast_concat, List.dropLast_concat]
  · cases es with
    | nil => rfl
    | cons e0 rest =>
      show buildFilterParts e0 1 0 (rest ++ [x]) = buildFilterParts e0 1 0 (rest ++ [y])
      exact buildFilterParts_last_irrelevant rest e0 1 0 x y

/-- Witness for C10: two concrete lists differing only in the last entry's
transition metadata get the same decision and the same filter chain. -/
theorem c10_last_entry_noninterference_witness :
    has_transitions [⟨"a.png", 2, "fade", 1⟩, ⟨"b.png", 3, "cut", 0⟩] =
      has_transitions [⟨"a.png", 2, "fade", 1⟩, ⟨"b.png", 3, "fade_to_black", 2⟩] ∧
    xfadeFilterChain [⟨"a.png", 2, "fade", 1⟩, ⟨"b.png", 3, "cut", 0⟩] =
      xfadeFilterChain [⟨"a.png", 2, "fade", 1⟩, ⟨"b.png", 3, "fade_to_black", 2⟩] :=
  c10_last_entry_noninterference [⟨"a.png", 2, "fade", 1⟩]
    ⟨"b.png", 3, "cut", 0⟩ ⟨"b.png", 3, "fade_to_black", 2⟩ rfl rfl

/-!
## Scene Timing Computer (`compute_scene_timings`, lines 679-714)
-/

/-- One Scene Timing Entry as built by `compute_scene_timings`. -/
structure Timing where
  scene_id : ℤ
  start_time : ℚ
  end_time : ℚ
  transition_type : String
  transition_duration : ℚ
deriving DecidableEq, Repr

/-- Default timing used only as the out-of-range default of `List.getD`. -/
def defaultTiming : Timing := ⟨0, 0, 0, "", 0⟩

/-- Python list indexing: a non-negative index is read directly, a negative
index wraps around by the list length, anything still out of range raises
(`none`). -/
def pyIndex (xs : List ℚ) (i : ℤ) : Option ℚ :=
  if 0 ≤ i then xs.get? i.toNat
  else if 0 ≤ i + xs.length then xs.get? (i + xs.length).toNat
  else none

/-- Python `round(x, 3)` modelled over `ℚ`: round `x * 1000` to the nearest
integer and divide back.  (Python uses round-half-to-even on floats; the
tie-breaking rule is irrelevant to the claims proved here, which only use
that rounding is monotone and exact on thousandths.) -/
def round3 (q : ℚ) : ℚ := (round (q * 1000) : ℤ) / 1000

/-- The accumulation loop of lines 687-694: for each scene text, record the
inclusive character range `[start, len(full_text)-1]` it occupies in the
running concatenation, then append the separator.  `acc` is `len(full_text)`
at the start of the iteration. -/
def rangesGo : List String → ℕ → List (ℤ × ℤ)
  | [], _ => []
  | t :: rest, acc =>
    ((acc : ℤ), (acc : ℤ) + t.length - 1) :: rangesGo rest (acc + t.length + 1)

/-- The `scene_char_ranges` list of `compute_scene_timings`. -/
def scene_char_ranges (texts : List String) : List (ℤ × ℤ) :=
  rangesGo texts 0

/-- The clamped character offsets of lines 698-699:
`clamped_start = min(char_start, len(char_start_times) - 1)` and
`clamped_end = min(char_end, len(char_end_times) - 1)`. -/
def clamped_char_indices (texts : List String) (len_starts len_ends : ℕ) :
    List (ℤ × ℤ) :=
  (scene_char_ranges texts).map
    (fun p => (min p.1 ((len_starts : ℤ) - 1), min p.2 ((len_ends : ℤ) - 1)))

/-- The output loop of lines 696-708: for each character range, clamp, read
the two timestamp lists and `scene_ids[i]`, and emit a Timing with
`transition_type = "cut"` and `transition_duration = 0`.  A failed list read
(Python `IndexError`) yields `none`. -/
def timingsGo (ids : List ℤ) (starts ends : List ℚ) :
    List (ℤ × ℤ) → ℕ → Option (List Timing)
  | [], _ => some []
  | (cs, ce) :: rest, i =>
    match pyIndex starts (min cs ((starts.length : ℤ) - 1)),
          pyIndex ends (min ce ((ends.length : ℤ) - 1)),
          ids.get? i with
    | some st, some et, some sid =>
      (timingsGo ids starts ends rest (i + 1)).map
        (fun ts => ⟨sid, round3 st, round3 et, "cut", 0⟩ :: ts)
    | _, _, _ => none

/-- `compute_scene_timings(scene_texts, scene_ids, alignment)`. -/
def compute_scene_timings (texts : List String) (scene_ids : List ℤ)
    (starts ends : List ℚ) : Option (List Timing) :=
  timingsGo scene_ids starts ends (scene_char_ranges texts) 0

lemma rangesGo_length : ∀ (texts : List String) (acc : ℕ),
    (rangesGo texts acc).length = texts.length := by
  intro texts
  induction texts with
  | nil => intro acc; rfl
  | cons t rest ih => intro acc; simp [rangesGo, ih]

lemma rangesGo_adjacent : ∀ (texts : List String) (acc k : ℕ),
    k + 1 < texts.length →
    ((rangesGo texts acc).getD (k + 1) (0, 0)).1 =
      ((rangesGo texts acc).getD k (0, 0)).2 + 2 := by
  intro texts
  induction texts with
  | nil => intro acc k hk; simp at hk
  | cons t rest ih =>
    intro acc k hk
    cases k with
    | zero =>
      cases rest with
      | nil => simp at hk
      | cons u rest' =>
        simp [rangesGo]
        ring
    | succ k =>
      have hk' : k + 1 < rest.length := by simpa using hk
      simp only [rangesGo, List.getD_cons_succ]
      exact ih (acc + t.length + 1) k hk'

lemma rangesGo_bounds : ∀ (texts : List String) (acc : ℕ),
    (∀ t ∈ texts, t.length ≠ 0) →
    ∀ p ∈ rangesGo texts acc, (0 : ℤ) ≤ p.1 ∧ p.1 ≤ p.2 := by
  intro texts
  induction texts with
  | nil => intro acc _ p hp; simp [rangesGo] at hp
  | cons t rest ih =>
    intro acc hne p hp
    rcases List.mem_cons.mp hp with h | h
    · subst h
      refine ⟨by positivity, ?_⟩
      have ht : 1 ≤ t.length := Nat.one_le_iff_ne_zero.mpr (hne t (by simp))
      simp only
      have : (1 : ℤ) ≤ t.length := by exact_mod_cast ht
      omega
    · exact ih (acc + t.length + 1) (fun u hu => hne u (by simp [hu])) p h

lemma pyIndex_in_bounds (xs : List ℚ) (i : ℤ) (h0 : 0 ≤ i)
    (hlt : i < (xs.length : ℤ)) : pyIndex xs i = some (xs.getD i.toNat 0) := by
  unfold pyIndex
  rw [if_pos h0]
  have hn : i.toNat < xs.length := by omega
  rw [List.getD_eq_getElem _ _ hn, List.get?_eq_getElem?, List.getElem?_eq_getElem hn]

lemma round3_mono {q r : ℚ} (h : q ≤ r) : round3 q ≤ round3 r := by
  unfold round3
  have h1 : q * 1000 ≤ r * 1000 := by nlinarith
  have h2 : round (q * 1000) ≤ round (r * 1000) := by
    rw [round_eq, round_eq]
    exact Int.floor_mono (by linarith)
  rw [div_le_div_iff_of_pos_right (by norm_num : (0 : ℚ) < 1000)]
  exact_mod_cast h2

/-- Success and per-entry ordering for the timing output loop, given ranges
with non-negative ascending endpoints, enough scene ids, equal-length
non-decreasing timestamp lists with `start[i] <= end[i]`, and at least one
timestamp. -/
lemma timingsGo_spec (ids : List ℤ) (starts ends : List ℚ)
    (hlen : starts.length = ends.length) (hpos : 0 < starts.length)
    (he : ∀ i j, i ≤ j → j < ends.length → ends.getD i 0 ≤ ends.getD j 0)
    (hse : ∀ i, i < starts.length → starts.getD i 0 ≤ ends.getD i 0) :
    ∀ (rl : List (ℤ × ℤ)) (i : ℕ),
      (∀ p ∈ rl, (0 : ℤ) ≤ p.1 ∧ p.1 ≤ p.2) →
      i + rl.length ≤ ids.length →
      ∃ ts, timingsGo ids starts ends rl i = some ts ∧
        ts.length = rl.length ∧
        ∀ t ∈ ts, t.start_time ≤ t.end_time := by
  intro rl
  induction rl with
  | nil => intro i _ _; exact ⟨[], rfl, rfl, by simp⟩
  | cons p rest ih =>
    intro i hb hi
    obtain ⟨cs, ce⟩ := p
    have hcs : (0 : ℤ) ≤ cs := (hb (cs, ce) (by simp)).1
    have hcsce : cs ≤ ce := (hb (cs, ce) (by simp)).2
    have hLs : (1 : ℤ) ≤ (starts.length : ℤ) := by exact_mod_cast hpos
    have hLe : (1 : ℤ) ≤ (ends.length : ℤ) := by rw [← hlen]; exact hLs
    set cs' := min cs ((starts.length : ℤ) - 1) with hcs'
    set ce' := min ce ((ends.length : ℤ) - 1) with hce'
    have hcs0 : 0 ≤ cs' := le_min hcs (by omega)
    have hcslt : cs' < (starts.length : ℤ) := lt_of_le_of_lt (min_le_right _ _) (by omega)
    have hce0 : 0 ≤ ce' := le_min (le_trans hcs hcsce) (by omega)
    have hcelt : ce' < (ends.length : ℤ) := lt_of_le_of_lt (min_le_right _ _) (by omega)
    have hcc : cs' ≤ ce' := by
      rw [hcs', hce', ← hlen]
      exact min_le_min hcsce le_rfl
    have hid : i < ids.length := by simp at hi; omega
    have hidr : ids.get? i = some (ids.getD i 0) := by
      rw [List.getD_eq_getElem _ _ hid, List.get?_eq_getElem?, List.getElem?_eq_getElem hid]
    obtain ⟨ts, hts, htsl, htso⟩ := ih (i + 1) (fun q hq => hb q (by simp [hq]))
      (by simp at hi ⊢; omega)
    refine ⟨⟨ids.getD i 0, round3 (starts.getD cs'.toNat 0),
      round3 (ends.getD ce'.toNat 0), "cut", 0⟩ :: ts, ?_, by simp [htsl], ?_⟩
    · rw [timingsGo, pyIndex_in_bounds starts cs' hcs0 hcslt,
        pyIndex_in_bounds ends ce' hce0 hcelt, hidr, hts]
      rfl
    · intro t ht
      rcases List.mem_cons.mp ht with h | h
      · subst h
        simp only
        apply round3_mono
        have h1 : starts.getD cs'.toNat 0 ≤ ends.getD cs'.toNat 0 :=
          hse cs'.toNat (by omega)
        have h2 : ends.getD cs'.toNat 0 ≤ ends.getD ce'.toNat 0 :=
          he cs'.toNat ce'.toNat (by omega) (by omega)
        exact le_trans h1 h2
      · exact htso t h

/-- C3 counterexample: with an empty scene text (`scene_texts = ["a","","b"]`)
and a valid alignment (equal-length, non-decreasing sequences with
`start[i] <= end[i]`), the middle entry has `end_time < start_time`,
refuting the claim that `end_time(i) >= start_time(i)` holds for every list
of scene texts. -/
theorem c3_end_before_start_counterexample :
    ∃ ts, compute_scene_timings ["a", "", "b"] [1, 2, 3] [0, 1, 2, 3]
        [1/2, 3/2, 5/2, 7/2] = some ts ∧
      (ts.getD 1 defaultTiming).end_time < (ts.getD 1 defaultTiming).start_time ∧
      List.Chain' (· ≤ ·) [(0 : ℚ), 1, 2, 3] ∧
      List.Chain' (· ≤ ·) [(1/2 : ℚ), 3/2, 5/2, 7/2] ∧
      (∀ i, i < 4 →
        ([(0 : ℚ), 1, 2, 3].getD i 0) ≤ ([(1/2 : ℚ), 3/2, 5/2, 7/2].getD i 0)) := by
  have ha : "a".length = 1 := rfl
  have hb : "b".length = 1 := rfl
  have h0 : "".length = 0 := rfl
  refine ⟨[⟨1, 0, 1/2, "cut", 0⟩, ⟨2, 2, 3/2, "cut", 0⟩, ⟨3, 3, 7/2, "cut", 0⟩],
    ?_, ?_, ?_, ?_, ?_⟩
  · norm_num [compute_scene_timings, scene_char_ranges, rangesGo, timingsGo, pyIndex,
      round3, List.get?, ha, hb, h0]
  · norm_num
  · norm_num [List.chain'_cons]
  · norm_num [List.chain'_cons]
  · intro i hi
    interval_cases i <;> norm_num

/-- C3 (amended): for a non-empty list of non-empty scene texts with enough
scene ids and a non-empty Alignment satisfying the Alignment invariant
(equal lengths, non-decreasing times, `start[i] <= end[i]`), the Scene Timing
Computer succeeds with one entry per scene, the character ranges are
contiguous (each range starts exactly two characters after the previous
range's inclusive end, skipping the single separator) and non-overlapping,
and every entry has `end_time >= start_time`.  The restriction to non-empty
scene texts is forced by `c3_end_before_start_counterexample`. -/
theorem c3_scene_timing_invariants (texts : List String) (ids : List ℤ)
    (starts ends : List ℚ)
    (htne : texts ≠ []) (hnonempty : ∀ t ∈ texts, t.length ≠ 0)
    (hids : texts.length ≤ ids.length)
    (hlen : starts.length = ends.length) (hpos : 0 < starts.length)
    (hs : ∀ i j, i ≤ j → j < starts.length → starts.getD i 0 ≤ starts.getD j 0)
    (he : ∀ i j, i ≤ j → j < ends.length → ends.getD i 0 ≤ ends.getD j 0)
    (hse : ∀ i, i < starts.length → starts.getD i 0 ≤ ends.getD i 0) :
    ∃ ts, compute_scene_timings texts ids starts ends = some ts ∧
      ts.length = texts.length ∧
      (scene_char_ranges texts).length = texts.length ∧
      ((scene_char_ranges texts).getD 0 (0, 0)).1 = 0 ∧
      (∀ k, k + 1 < texts.length →
        ((scene_char_ranges texts).getD (k + 1) (0, 0)).1 =
          ((scene_char_ranges texts).getD k (0, 0)).2 + 2 ∧
        ((scene_char_ranges texts).getD k (0, 0)).2 <
          ((scene_char_ranges texts).getD (k + 1) (0, 0)).1) ∧
      (∀ t ∈ ts, t.start_time ≤ t.end_time) := by
  have hrl : (scene_char_ranges texts).length = texts.length := rangesGo_length texts 0
  obtain ⟨ts, h1, h2, h3⟩ := timingsGo_spec ids starts ends hlen hpos he hse
    (scene_char_ranges texts) 0 (rangesGo_bounds texts 0 hnonempty)
    (by rw [Nat.zero_add, hrl]; exact hids)
  refine ⟨ts, h1, by rw [h2, hrl], hrl, ?_, ?_, h3⟩
  · cases texts with
    | nil => exact absurd rfl htne
    | cons t rest => simp [scene_char_ranges, rangesGo]
  · intro k hk
    have hadj := rangesGo_adjacent texts 0 k hk
    constructor
    · simpa [scene_char_ranges] using hadj
    · simp only [scene_char_ranges]
      omega

/-- Witness for C3 (amended): two one-character scenes against a 3-character
alignment. -/
theorem c3_scene_timing_invariants_witness :
    ∃ ts, compute_scene_timings ["a", "b"] [1, 2] [0, 1, 2] [1, 2, 3] = some ts ∧
      ts.length = 2 ∧ ∀ t ∈ ts, t.start_time ≤ t.end_time := by
  obtain ⟨ts, h1, h2, -, -, -, h6⟩ := c3_scene_timing_invariants
    ["a", "b"] [1, 2] [0, 1, 2] [1, 2, 3]
    (by simp) (by decide)
    (by norm_num) (by norm_num) (by norm_num)
    (by intro i j hij hj
        simp only [List.length_cons, List.length_nil] at hj
        interval_cases j <;> interval_cases i <;> norm_num)
    (by intro i j hij hj
        simp only [List.length_cons, List.length_nil] at hj
        interval_cases j <;> interval_cases i <;> norm_num)
    (by intro i hi
        simp only [List.length_cons, List.length_nil] at hi
        interval_cases i <;> norm_num)
  exact ⟨ts, h1, by simpa using h2, h6⟩

/-- C4 counterexample: the clamp of lines 698-699 is only an upper clamp
(`min` with `len-1`); for a list containing an empty scene text the clamped
end offset is `-1`, which is NOT in `[0, len(character_times)-1]` — the
subsequent Python read is a negative (wrap-around) index, not the claimed
in-range access. -/
theorem c4_clamp_counterexample :
    (clamped_char_indices [""] 1 1).getD 0 (0, 0) = (0, -1) ∧
    ¬ (0 : ℤ) ≤ ((clamped_char_indices [""] 1 1).getD 0 (0, 0)).2 := by
  have h0 : "".length = 0 := rfl
  constructor
  · simp [clamped_char_indices, scene_char_ranges, rangesGo, h0]
  · simp [clamped_char_indices, scene_char_ranges, rangesGo, h0]

/-- C4 (amended): the code clamps only from above, by `min` with `len-1`; for
every list of NON-empty scene texts and non-empty timestamp lists, both
clamped offsets do land in `[0, len-1]` and the two reads are in-bounds
(never negative).  The exclusion of empty scene texts is forced by
`c4_clamp_counterexample`. -/
theorem c4_clamped_offsets_in_bounds (texts : List String) (Ls Le : ℕ)
    (hnonempty : ∀ t ∈ texts, t.length ≠ 0) (hLs : 1 ≤ Ls) (hLe : 1 ≤ Le) :
    ∀ p ∈ clamped_char_indices texts Ls Le,
      (0 ≤ p.1 ∧ p.1 ≤ (Ls : ℤ) - 1) ∧ (0 ≤ p.2 ∧ p.2 ≤ (Le : ℤ) - 1) ∧
      ∀ (starts ends : List ℚ), starts.length = Ls → ends.length = Le →
        (pyIndex starts p.1).isSome ∧ (pyIndex ends p.2).isSome := by
  intro p hp
  rcases List.mem_map.mp hp with ⟨q, hq, hpq⟩
  obtain ⟨hq0, hq12⟩ := rangesGo_bounds texts 0 hnonempty q hq
  have hLs' : (1 : ℤ) ≤ (Ls : ℤ) := by exact_mod_cast hLs
  have hLe' : (1 : ℤ) ≤ (Le : ℤ) := by exact_mod_cast hLe
  subst hpq
  have h1 : 0 ≤ min q.1 ((Ls : ℤ) - 1) := le_min hq0 (by omega)
  have h2 : min q.1 ((Ls : ℤ) - 1) ≤ (Ls : ℤ) - 1 := min_le_right _ _
  have h3 : 0 ≤ min q.2 ((Le : ℤ) - 1) := le_min (le_trans hq0 hq12) (by omega)
  have h4 : min q.2 ((Le : ℤ) - 1) ≤ (Le : ℤ) - 1 := min_le_right _ _
  refine ⟨⟨h1, h2⟩, ⟨h3, h4⟩, ?_⟩
  intro starts ends hsl hel
  constructor
  · rw [pyIndex_in_bounds starts _ h1 (by rw [hsl]; omega)]
    rfl
  · rw [pyIndex_in_bounds ends _ h3 (by rw [hel]; omega)]
    rfl

/-- Witness for C4 (amended) at a concrete input: the clamped offset pair of
the single scene `"ab"` against length-1 timestamp lists gives in-bounds
(`isSome`) reads. -/
theorem c4_clamped_offsets_in_bounds_witness :
    (pyIndex [(5 : ℚ)] 0).isSome = true ∧ (pyIndex [(7 : ℚ)] 0).isSome = true := by
  have hab : "ab".length = 2 := rfl
  have hmem : ((0 : ℤ), (0 : ℤ)) ∈ clamped_char_indices ["ab"] 1 1 := by
    norm_num [clamped_char_indices, scene_char_ranges, rangesGo, hab]
  have h := c4_clamped_offsets_in_bounds ["ab"] 1 1 (by decide) le_rfl le_rfl _ hmem
  exact h.2.2 [(5 : ℚ)] [(7 : ℚ)] rfl rfl

/-!
## Word Grouper (`_group_chars_into_words`, lines 721-756)
-/

/-- One word with timing, as built by `_group_chars_into_words`.  The Python
string `current_word` is modelled as a list of characters; the `end` key is
named `end_` (`end` is a Lean keyword). -/
structure Word where
  word : List Char
  start : ℚ
  end_ : ℚ
deriving DecidableEq, Repr

/-- The separator test of line 733: the character is a space or a newline. -/
def isWordSep (c : Char) : Bool := c = ' ' || c = '\n'

/-- The scanning loop of `_group_chars_into_words`.  The buffer is
`some (current_word, word_start, word_end)` when `current_word` is non-empty
and `none` otherwise (in the Python code `current_word = ""` and
`word_start = word_end = None` always change together).  On a non-whitespace
character the code reads `starts[i]` (only when starting a word) and
`ends[i]` (always); an out-of-range read is Python's `IndexError`, modelled
as `none`. -/
def group_go (starts ends : List ℚ) :
    List Char → ℕ → Option (List Char × ℚ × ℚ) → Option (List Word)
  | [], _, none => some []
  | [], _, some (w, s, e) => some [⟨w, s, e⟩]
  | ch :: rest, i, none =>
    if isWordSep ch then
      group_go starts ends rest (i + 1) none
    else
      match starts.get? i, ends.get? i with
      | some s, some e => group_go starts ends rest (i + 1) (some ([ch], s, e))
      | _, _ => none
  | ch :: rest, i, some (w, s, e) =>
    if isWordSep ch then
      (group_go starts ends rest (i + 1) none).map (fun ws => ⟨w, s, e⟩ :: ws)
    else
      match ends.get? i with
      | some e' => group_go starts ends rest (i + 1) (some (w ++ [ch], s, e'))
      | none => none

/-- `_group_chars_into_words(alignment)` over the three alignment sequences. -/
def _group_chars_into_words (chars : List Char) (starts ends : List ℚ) :
    Option (List Word) :=
  group_go starts ends chars 0 none

/-- Zip the three alignment sequences into per-character triples. -/
def zip3 : List Char → List ℚ → List ℚ → List (Char × ℚ × ℚ)
  | c :: cs, s :: ss, e :: es => (c, s, e) :: zip3 cs ss es
  | _, _, _ => []

/-- Specification-side run splitter: the maximal runs of non-separator
characters of the triple list (`buf` is the run being accumulated). -/
def runsGo : List (Char × ℚ × ℚ) → List (Char × ℚ × ℚ) → List (List (Char × ℚ × ℚ))
  | [], buf => if buf = [] then [] else [buf]
  | t :: rest, buf =>
    if isWordSep t.1 then
      if buf = [] then runsGo rest [] else buf :: runsGo rest []
    else
      runsGo rest (buf ++ [t])

/-- Specification-side word of one run: its characters, the start time of its
first character and the end time of its last character. -/
def mkWord (r : List (Char × ℚ × ℚ)) : Word :=
  ⟨r.map (·.1), (r.headD (' ', 0, 0)).2.1, (r.getLastD (' ', 0, 0)).2.2⟩

/-- Specification-side Word Grouper (§4.1 of the spec): split the character
triples into maximal non-whitespace runs and map each run to a Word. -/
def specWords (chars : List Char) (starts ends : List ℚ) : List Word :=
  (runsGo (zip3 chars starts ends) []).map mkWord

/-- Number of whitespace-delimited tokens of a character string, scanning
with an `inWord` flag (a token is counted when entered). -/
def countTokens : List Char → Bool → ℕ
  | [], _ => 0
  | c :: rest, inWord =>
    if isWordSep c then countTokens rest false
    else (if inWord then 0 else 1) + countTokens rest true

/-- The Python buffer corresponding to a (possibly empty) run of triples. -/
def encodeBuf : List (Char × ℚ × ℚ) → Option (List Char × ℚ × ℚ)
  | [] => none
  | t :: ts => some ((t :: ts).map (·.1), t.2.1, ((t :: ts).getLastD t).2.2)

lemma get?_eq_some_getD {α : Type} (xs : List α) (d : α) (i : ℕ)
    (h : i < xs.length) : xs.get? i = some (xs.getD i d) := by
  rw [List.getD_eq_getElem _ _ h, List.get?_eq_getElem?, List.getElem?_eq_getElem h]

lemma drop_eq_getD_cons {α : Type} [Inhabited α] (xs : List α) (i : ℕ)
    (h : i < xs.length) : xs.drop i = xs.getD i default :: xs.drop (i + 1) := by
  rw [List.getD_eq_getElem _ _ h, ← List.getElem_cons_drop xs i h]

lemma encodeBuf_append (buf : List (Char × ℚ × ℚ)) (t : Char × ℚ × ℚ)
    (w : List Char) (s e : ℚ) (h : encodeBuf buf = some (w, s, e)) :
    encodeBuf (buf ++ [t]) = some (w ++ [t.1], s, t.2.2) := by
  cases buf with
  | nil => simp [encodeBuf] at h
  | cons b bs =>
    simp only [encodeBuf, Option.some.injEq, Prod.mk.injEq] at h
    obtain ⟨hw, hs, he⟩ := h
    simp only [List.cons_append, encodeBuf, Option.some.injEq, Prod.mk.injEq]
    refine ⟨by simp [← hw], hs, ?_⟩
    have h1 : (b :: (bs ++ [t])).getLastD b = t := by
      rw [← List.cons_append, List.getLastD_concat]
    rw [h1]

lemma mkWord_of_encodeBuf (buf : List (Char × ℚ × ℚ)) (w : List Char) (s e : ℚ)
    (h : encodeBuf buf = some (w, s, e)) : mkWord buf = ⟨w, s, e⟩ := by
  cases buf with
  | nil => simp [encodeBuf] at h
  | cons b bs =>
    simp only [encodeBuf, Option.some.injEq, Prod.mk.injEq] at h
    obtain ⟨hw, hs, he⟩ := h
    simp only [mkWord, List.headD_cons, ← hw, ← hs, ← he]
    rw [List.getLastD_cons, List.getLastD_cons]

/-- Core refinement: when the timestamp lists cover all remaining character
indices, the Python scanning loop agrees with the specification-side run
splitter. -/
lemma group_go_eq_runs (starts ends : List ℚ) :
    ∀ (chars : List Char) (i : ℕ) (buf : List (Char × ℚ × ℚ)),
      chars.length + i ≤ starts.length → chars.length + i ≤ ends.length →
      group_go starts ends chars i (encodeBuf buf) =
        some ((runsGo (zip3 chars (starts.drop i) (ends.drop i)) buf).map mkWord) := by
  intro chars
  induction chars with
  | nil =>
    intro i buf _ _
    cases buf with
    | nil => simp [group_go, encodeBuf, runsGo, zip3]
    | cons t ts =>
      simp only [encodeBuf, group_go, zip3, runsGo, if_neg (List.cons_ne_nil t ts),
        List.map_cons, List.map_nil, Option.some.injEq, List.cons.injEq, and_true]
      rw [mkWord_of_encodeBuf (t :: ts) _ _ _ rfl]
      simp [List.map_cons]
  | cons ch rest ih =>
    intro i buf h1 h2
    have hi1 : i < starts.length := by simp at h1; omega
    have hi2 : i < ends.length := by simp at h2; omega
    have h1' : rest.length + (i + 1) ≤ starts.length := by simp at h1 ⊢; omega
    have h2' : rest.length + (i + 1) ≤ ends.length := by simp at h2 ⊢; omega
    have hds : starts.drop i = starts.getD i 0 :: starts.drop (i + 1) :=
      drop_eq_getD_cons starts i hi1
    have hde : ends.drop i = ends.getD i 0 :: ends.drop (i + 1) :=
      drop_eq_getD_cons ends i hi2
    rw [hds, hde]
    by_cases hsep : isWordSep ch
    · cases buf with
      | nil =>
        simp only [encodeBuf, group_go, if_pos hsep, zip3, runsGo, if_pos rfl]
        have := ih (i + 1) [] h1' h2'
        simpa [encodeBuf] using this
      | cons t ts =>
        simp only [encodeBuf, group_go, if_pos hsep, zip3, runsGo,
          if_neg (List.cons_ne_nil t ts), List.map_cons]
        have := ih (i + 1) [] h1' h2'
        simp only [encodeBuf] at this
        rw [this]
        simp only [Option.map_some', Option.some.injEq, List.cons.injEq, and_true]
        rw [mkWord_of_encodeBuf (t :: ts) _ _ _ rfl]
        simp [List.map_cons]
    · cases buf with
      | nil =>
        simp only [encodeBuf, group_go, if_neg hsep, zip3, runsGo, List.nil_append]
        rw [get?_eq_some_getD starts 0 i hi1, get?_eq_some_getD ends 0 i hi2]
        have := ih (i + 1) [(ch, starts.getD i 0, ends.getD i 0)] h1' h2'
        simpa [encodeBuf, List.getLastD] using this
      | cons t ts =>
        simp only [encodeBuf, group_go, if_neg hsep, zip3, runsGo]
        rw [get?_eq_some_getD ends 0 i hi2]
        have := ih (i + 1) ((t :: ts) ++ [(ch, starts.getD i 0, ends.getD i 0)]) h1' h2'
        rw [encodeBuf_append (t :: ts) (ch, starts.getD i 0, ends.getD i 0) _ _ _ rfl] at this
        simpa [encodeBuf] using this

lemma zip3_map_fst : ∀ (chars : List Char) (starts ends : List ℚ),
    chars.length ≤ starts.length → chars.length ≤ ends.length →
    (zip3 chars starts ends).map (·.1) = chars := by
  intro chars
  induction chars with
  | nil => intro starts ends _ _; cases starts <;> cases ends <;> rfl
  | cons c cs ih =>
    intro starts ends h1 h2
    cases starts with
    | nil => simp at h1
    | cons s ss =>
      cases ends with
      | nil => simp at h2
      | cons e es =>
        simp only [zip3, List.map_cons, List.cons.injEq, true_and]
        exact ih ss es (by simpa using h1) (by simpa using h2)

lemma zip3_mem : ∀ (chars : List Char) (starts ends : List ℚ)
    (t : Char × ℚ × ℚ), t ∈ zip3 chars starts ends →
    t.2.1 ∈ starts ∧ t.2.2 ∈ ends := by
  intro chars
  induction chars with
  | nil => intro starts ends t ht; cases starts <;> cases ends <;> simp [zip3] at ht
  | cons c cs ih =>
    intro starts ends t ht
    cases starts with
    | nil => simp [zip3] at ht
    | cons s ss =>
      cases ends with
      | nil => simp [zip3] at ht
      | cons e es =>
        rcases List.mem_cons.mp ht with h | h
        · subst h; exact ⟨by simp, by simp⟩
        · obtain ⟨hs, he⟩ := ih ss es t h
          exact ⟨by simp [hs], by simp [he]⟩

lemma runsGo_length : ∀ (l : List (Char × ℚ × ℚ)) (buf : List (Char × ℚ × ℚ)),
    (runsGo l buf).length =
      countTokens (l.map (·.1)) (if buf = [] then false else true) +
        (if buf = [] then 0 else 1) := by
  intro l
  induction l with
  | nil =>
    intro buf
    cases buf with
    | nil => simp [runsGo, countTokens]
    | cons b bs => simp [runsGo, countTokens]
  | cons t rest ih =>
    intro buf
    by_cases hsep : isWordSep t.1
    · rw [runsGo, if_pos hsep]
      by_cases hb : buf = []
      · subst hb
        rw [if_pos rfl, ih []]
        simp [List.map_cons, countTokens, hsep]
      · rw [if_neg hb, if_neg hb, if_neg hb, List.length_cons, ih []]
        simp [List.map_cons, countTokens, hsep]
    · rw [runsGo, if_neg hsep, ih (buf ++ [t])]
      have hne : buf ++ [t] ≠ [] := by simp
      rw [if_neg hne, if_neg hne]
      by_cases hb : buf = []
      · subst hb
        rw [if_pos rfl, if_pos rfl]
        simp [List.map_cons, countTokens, hsep]
        omega
      · rw [if_neg hb, if_neg hb]
        simp [List.map_cons, countTokens, hsep]

lemma runsGo_mem_of_mem : ∀ (l buf r : List (Char × ℚ × ℚ)) (t : Char × ℚ × ℚ),
    r ∈ runsGo l buf → t ∈ r → t ∈ l ∨ t ∈ buf := by
  intro l
  induction l with
  | nil =>
    intro buf r t hr ht
    by_cases hb : buf = []
    · subst hb; simp [runsGo] at hr
    · rw [runsGo, if_neg hb] at hr
      rcases List.mem_singleton.mp hr with rfl
      exact Or.inr ht
  | cons u rest ih =>
    intro buf r t hr ht
    by_cases hsep : isWordSep u.1
    · rw [runsGo, if_pos hsep] at hr
      by_cases hb : buf = []
      · rw [if_pos hb] at hr
        rcases ih [] r t hr ht with h | h
        · exact Or.inl (List.mem_cons_of_mem u h)
        · simp at h
      · rw [if_neg hb] at hr
        rcases List.mem_cons.mp hr with rfl | hr'
        · exact Or.inr ht
        · rcases ih [] r t hr' ht with h | h
          · exact Or.inl (List.mem_cons_of_mem u h)
          · simp at h
    · rw [runsGo, if_neg hsep] at hr
      rcases ih (buf ++ [u]) r t hr ht with h | h
      · exact Or.inl (List.mem_cons_of_mem u h)
      · rcases List.mem_append.mp h with h' | h'
        · exact Or.inr h'
        · rcases List.mem_singleton.mp h' with rfl
          exact Or.inl (List.mem_cons_self _ _)

lemma runsGo_ne_nil : ∀ (l buf r : List (Char × ℚ × ℚ)),
    r ∈ runsGo l buf → r ≠ [] := by
  intro l
  induction l with
  | nil =>
    intro buf r hr
    by_cases hb : buf = []
    · subst hb; simp [runsGo] at hr
    · rw [runsGo, if_neg hb] at hr
      rcases List.mem_singleton.mp hr with rfl
      exact hb
  | cons u rest ih =>
    intro buf r hr
    by_cases hsep : isWordSep u.1
    · rw [runsGo, if_pos hsep] at hr
      by_cases hb : buf = []
      · rw [if_pos hb] at hr
        exact ih [] r hr
      · rw [if_neg hb] at hr
        rcases List.mem_cons.mp hr with rfl | hr'
        · exact hb
        · exact ih [] r hr'
    · rw [runsGo, if_neg hsep] at hr
      exact ih (buf ++ [u]) r hr

lemma getLastD_mem {α : Type} (t : α) (ts : List α) (d : α) :
    (t :: ts).getLastD d ∈ t :: ts := by
  induction ts generalizing t with
  | nil => simp
  | cons u us ih =>
    rw [List.getLastD_cons]
    exact List.mem_cons_of_mem t (ih u)

/-- C8 counterexample: an Alignment with mismatched sequence lengths
(2 characters, 1 start time, 1 end time) on which `_group_chars_into_words`
returns normally — the trailing character is whitespace, so the out-of-range
indices are never read. -/
theorem c8_mismatch_counterexample :
    (['a', ' '] : List Char).length ≠ ([(0 : ℚ)] : List ℚ).length ∧
    _group_chars_into_words ['a', ' '] [(0 : ℚ)] [(1/10 : ℚ)] =
      some [⟨['a'], 0, 1/10⟩] := by
  constructor
  · simp
  · have h1 : isWordSep 'a' = false := rfl
    have h2 : isWordSep ' ' = true := rfl
    simp [_group_chars_into_words, group_go, h1, h2, List.get?]

/-- Failure half of C8 (amended): a non-whitespace character at an index not
covered by the end-times sequence forces an `IndexError` (`none`). -/
lemma group_go_none (starts ends : List ℚ) :
    ∀ (chars : List Char) (i : ℕ) (buf : Option (List Char × ℚ × ℚ)),
      (∃ j, j < chars.length ∧ isWordSep (chars.getD j ' ') = false ∧
        ends.length ≤ i + j) →
      group_go starts ends chars i buf = none := by
  intro chars
  induction chars with
  | nil => rintro i buf ⟨j, hj, -, -⟩; simp at hj
  | cons ch rest ih =>
    rintro i buf ⟨j, hj, hns, hlen⟩
    cases j with
    | zero =>
      simp only [List.getD_cons_zero] at hns
      have hnone : ends.get? i = none := by
        rw [List.get?_eq_none]
        omega
      have hnone2 : ends[i]? = none := by
        rw [← List.get?_eq_getElem?]
        exact hnone
      cases buf with
      | none =>
        rw [group_go, if_neg (by simp [hns])]
        cases hs : starts.get? i <;> simp [hnone, hnone2]
      | some b =>
        obtain ⟨w, s, e⟩ := b
        rw [group_go, if_neg (by simp [hns])]
        simp [hnone, hnone2]
    | succ j =>
      have hrec : ∀ (buf' : Option (List Char × ℚ × ℚ)),
          group_go starts ends rest (i + 1) buf' = none := by
        intro buf'
        exact ih (i + 1) buf' ⟨j, by simpa using hj, by simpa using hns, by omega⟩
      cases buf with
      | none =>
        rw [group_go]
        by_cases hsep : isWordSep ch
        · rw [if_pos hsep]; exact hrec none
        · rw [if_neg hsep]
          cases hs : starts.get? i <;> cases he : ends.get? i <;>
            simp [hrec]
      | some b =>
        obtain ⟨w, s, e⟩ := b
        rw [group_go]
        by_cases hsep : isWordSep ch
        · rw [if_pos hsep, hrec none]; rfl
        · rw [if_neg hsep]
          cases he : ends.get? i <;> simp [hrec]

/-- C8 (amended): mismatched sequence lengths alone do not make the Word
Grouper fail.  It returns normally whenever both time sequences cover every
character index (even if the lengths differ), and it fails (IndexError)
whenever some non-whitespace character sits at an index with no end time.
The first half refutes the claim as stated, together with
`c8_mismatch_counterexample`. -/
theorem c8_group_failure_characterization (chars : List Char) (starts ends : List ℚ) :
    (chars.length ≤ starts.length → chars.length ≤ ends.length →
      ∃ ws, _group_chars_into_words chars starts ends = some ws) ∧
    (∀ j, j < chars.length → isWordSep (chars.getD j ' ') = false →
      ends.length ≤ j → _group_chars_into_words chars starts ends = none) := by
  constructor
  · intro h1 h2
    exact ⟨_, group_go_eq_runs starts ends chars 0 [] (by simpa using h1) (by simpa using h2)⟩
  · intro j hj hns hlen
    exact group_go_none starts ends chars 0 none ⟨j, hj, hns, by simpa using hlen⟩

/-- Witness for C8 (amended): time lists longer than the character list still
give a normal return, and a non-whitespace character beyond the end-times
length gives a failure. -/
theorem c8_group_failure_characterization_witness :
    (∃ ws, _group_chars_into_words ['a'] [(0 : ℚ), 8] [(1 : ℚ), 9] = some ws) ∧
    _group_chars_into_words ['a', 'b'] [(0 : ℚ)] [(1 : ℚ)] = none := by
  constructor
  · exact (c8_group_failure_characterization ['a'] [0, 8] [1, 9]).1
      (by simp) (by simp)
  · exact (c8_group_failure_characterization ['a', 'b'] [0] [1]).2 1
      (by simp) rfl (by simp)

/-- C5: for every Alignment whose three sequences have equal length, the Word
Grouper succeeds and refines the specification-side grouper (each word is a
maximal non-whitespace run, its start the start time of its first character
and its end the end time of its last character); its word count equals the
number of whitespace-delimited tokens of the character string; and every
word's `[start, end]` interval lies inside any bound enclosing all start and
end times, in particular inside `[min_start, max_end]`. -/
theorem c5_word_grouper_spec (chars : List Char) (starts ends : List ℚ)
    (h1 : chars.length = starts.length) (h2 : chars.length = ends.length) :
    ∃ ws, _group_chars_into_words chars starts ends = some ws ∧
      ws = specWords chars starts ends ∧
      ws.length = countTokens chars false ∧
      ∀ w ∈ ws, w.start ∈ starts ∧ w.end_ ∈ ends ∧
        ∀ lo hi : ℚ, (∀ s ∈ starts, lo ≤ s) → (∀ e ∈ ends, e ≤ hi) →
          lo ≤ w.start ∧ w.end_ ≤ hi := by
  have hg := group_go_eq_runs starts ends chars 0 []
    (by simpa using h1.le) (by simpa using h2.le)
  refine ⟨specWords chars starts ends, ?_, rfl, ?_, ?_⟩
  · simpa [_group_chars_into_words, encodeBuf, specWords] using hg
  · rw [specWords, List.length_map, runsGo_length,
      zip3_map_fst chars starts ends h1.le h2.le]
    simp
  · intro w hw
    rcases List.mem_map.mp hw with ⟨r, hr, hmk⟩
    have hne : r ≠ [] := runsGo_ne_nil _ _ _ hr
    match r, hne with
    | t :: ts, _ =>
      have hhead : t ∈ t :: ts := List.mem_cons_self t ts
      have hlast : (t :: ts).getLastD (' ', 0, 0) ∈ t :: ts := getLastD_mem t ts _
      have hmem1 : t ∈ zip3 chars starts ends := by
        rcases runsGo_mem_of_mem _ _ _ _ hr hhead with h | h
        · exact h
        · simp at h
      have hmem2 : (t :: ts).getLastD (' ', 0, 0) ∈ zip3 chars starts ends := by
        rcases runsGo_mem_of_mem _ _ _ _ hr hlast with h | h
        · exact h
        · simp at h
      have hws : w.start = t.2.1 := by rw [← hmk]; rfl
      have hwe : w.end_ = ((t :: ts).getLastD (' ', 0, 0)).2.2 := by rw [← hmk]; rfl
      have hs := (zip3_mem chars starts ends t hmem1).1
      have he := (zip3_mem chars starts ends _ hmem2).2
      rw [hws, hwe]
      exact ⟨hs, he, fun lo hi hlo hhi => ⟨hlo _ hs, hhi _ he⟩⟩

/-- Witness for C5 at a concrete aligned input `"ab c"`. -/
theorem c5_word_grouper_spec_witness :
    ∃ ws, _group_chars_into_words ['a', 'b', ' ', 'c'] [(0 : ℚ), 1, 2, 3]
        [(1 : ℚ), 2, 3, 4] = some ws ∧
      ws.length = countTokens ['a', 'b', ' ', 'c'] false := by
  obtain ⟨ws, hws, -, hlen, -⟩ := c5_word_grouper_spec ['a', 'b', ' ', 'c']
    [0, 1, 2, 3] [1, 2, 3, 4] rfl rfl
  exact ⟨ws, hws, hlen⟩

/-!
## Subtitle Track Builder (`generate_captions_ass`, lines 804-874)
-/

/-- The default Word used only as an out-of-range `getD` default. -/
def defaultWord : Word := ⟨[], 0, 0⟩

/-- Python's `words[chunk_start:chunk_start+n]` slicing loop
`for chunk_start in range(0, len(words), n)`: split into chunks of `n`. -/
def chunksOf (n : ℕ) (l : List Word) : List (List Word) :=
  if _h : l = [] ∨ n = 0 then [] else l.take n :: chunksOf n (l.drop n)
termination_by l.length
decreasing_by
  simp only [List.length_drop]
  push_neg at _h
  have := List.length_pos.mpr _h.1
  omega

/-- One `Dialogue` event of the `word_highlight` style: display interval and
the per-word styled parts, `true` marking the single `Highlight`-styled word,
`false` the `Dim`-styled ones. -/
structure HEvent where
  start : ℚ
  end_ : ℚ
  parts : List (Bool × List Char)
deriving DecidableEq, Repr

/-- The `word_highlight` inner loops (lines 840-857): one event per word of
the chunk; the event for word `wi` renders every word of the chunk, with
exactly word `wi` highlighted, and spans from `wi`'s start to the next
word's start (or to the chunk's overall end for the chunk's last word). -/
def chunkEvents (chunk : List Word) : List HEvent :=
  (List.range chunk.length).map (fun wi =>
    ⟨(chunk.getD wi defaultWord).start,
      (if wi < chunk.length - 1 then (chunk.getD (wi + 1) defaultWord).start
       else (chunk.getLastD defaultWord).end_),
      (List.range chunk.length).map
        (fun wj => (wj == wi, (chunk.getD wj defaultWord).word))⟩)

/-- All `word_highlight` events: fixed chunks of 5 (line 835-836), events of
each chunk concatenated in order. -/
def wordHighlightEvents (words : List Word) : List HEvent :=
  ((chunksOf 5 words).map chunkEvents).flatten

/-- One `Dialogue` event of the `subtitle_chunks` style (lines 859-866). -/
structure CEvent where
  start : ℚ
  end_ : ℚ
  text : List (List Char)
deriving DecidableEq, Repr

/-- The `subtitle_chunks` loop: fixed chunks of 6, one event per chunk from
the chunk's first word start to its last word end. -/
def subtitleChunkEvents (words : List Word) : List CEvent :=
  (chunksOf 6 words).map (fun chunk =>
    ⟨(chunk.headD defaultWord).start, (chunk.getLastD defaultWord).end_,
      chunk.map (·.word)⟩)

/-- The two possible event lists of `generate_captions_ass`. -/
inductive CaptionsOut where
  | highlight (events : List HEvent)
  | chunks (events : List CEvent)
deriving DecidableEq

/-- `generate_captions_ass(alignment, caption_style, ...)` (lines 804-874),
modelled up to its pure event content: group the characters into words,
raise (`none`) when the word list is empty (`ValueError`, line 810-811),
otherwise emit the event list of the selected style. -/
def generate_captions_ass (chars : List Char) (starts ends : List ℚ)
    (caption_style : String) : Option CaptionsOut :=
  match _group_chars_into_words chars starts ends with
  | none => none
  | some [] => none
  | some (w :: ws) =>
    some (if caption_style = "word_highlight" then
      .highlight (wordHighlightEvents (w :: ws))
    else
      .chunks (subtitleChunkEvents (w :: ws)))

/-- C9: the Subtitle Track Builder fails exactly when the derived Word
sequence is empty: it returns `none` iff the Word Grouper yields no
(non-empty) word list — for every alignment whose characters yield no words
it raises, and whenever at least one word is derived it returns normally. -/
theorem c9_captions_fail_iff_no_words (chars : List Char) (starts ends : List ℚ)
    (caption_style : String) :
    generate_captions_ass chars starts ends caption_style = none ↔
      ∀ ws, _group_chars_into_words chars starts ends = some ws → ws = [] := by
  unfold generate_captions_ass
  cases hg : _group_chars_into_words chars starts ends with
  | none => simp
  | some ws =>
    cases ws with
    | nil => simp
    | cons w ws' => simp

lemma chunksOf_join (n : ℕ) (hn : n ≠ 0) (l : List Word) :
    (chunksOf n l).flatten = l := by
  rw [chunksOf]
  by_cases h : l = [] ∨ n = 0
  · rw [dif_pos h]
    rcases h with h | h
    · simp [h]
    · exact absurd h hn
  · rw [dif_neg h]
    rw [List.flatten_cons, chunksOf_join n hn (l.drop n)]
    exact List.take_append_drop n l
termination_by l.length
decreasing_by
  simp only [List.length_drop]
  push_neg at h
  have := List.length_pos.mpr h.1
  omega

lemma chunkEvents_length (chunk : List Word) :
    (chunkEvents chunk).length = chunk.length := by
  simp [chunkEvents]

lemma count_filter_beq (n wi : ℕ) (hwi : wi < n) (f : ℕ → List Char) :
    ((((List.range n).map (fun wj => ((wj == wi : Bool), f wj))).filter
      (·.1)).length) = 1 := by
  rw [← List.countP_eq_length_filter, List.countP_map]
  have h1 : ((List.range n).countP ((fun p => p.1) ∘ fun wj => ((wj == wi : Bool), f wj)))
      = (List.range n).count wi := by
    rw [List.count]
    rfl
  rw [h1]
  exact List.count_eq_one_of_mem (List.nodup_range n) (List.mem_range.mpr hwi)

/-- C7: in `word_highlight` style, exactly one subtitle event is emitted per
word (so a 5-word input yields exactly 5 events); every event renders all
words of its chunk with exactly one highlighted; and the event for word `wi`
of a chunk spans from `wi`'s own start to the start of the next word of the
chunk, or to the chunk's overall end time for the chunk's last word. -/
theorem c7_word_highlight_events (ws : List Word) :
    (wordHighlightEvents ws).length = ws.length ∧
    ∀ e ∈ wordHighlightEvents ws, ∃ c, c ∈ chunksOf 5 ws ∧ ∃ wi, wi < c.length ∧
      e.parts = (List.range c.length).map
        (fun wj => ((wj == wi : Bool), (c.getD wj defaultWord).word)) ∧
      (e.parts.filter (·.1)).length = 1 ∧
      e.start = (c.getD wi defaultWord).start ∧
      e.end_ = (if wi < c.length - 1 then (c.getD (wi + 1) defaultWord).start
                else (c.getLastD defaultWord).end_) := by
  constructor
  · rw [wordHighlightEvents, List.length_flatten, List.map_map]
    have h1 : ((chunksOf 5 ws).map (List.length ∘ chunkEvents)) =
        (chunksOf 5 ws).map List.length := by
      apply List.map_congr_left
      intro c _
      exact chunkEvents_length c
    rw [h1, ← List.length_flatten, chunksOf_join 5 (by norm_num) ws]
  · intro e he
    rw [wordHighlightEvents] at he
    rcases List.mem_flatten.mp he with ⟨lev, hlev, helev⟩
    rcases List.mem_map.mp hlev with ⟨c, hc, hcev⟩
    subst hcev
    rcases List.mem_map.mp helev with ⟨wi, hwi, hev⟩
    have hwi' : wi < c.length := List.mem_range.mp hwi
    subst hev
    exact ⟨c, hc, wi, hwi', rfl, count_filter_beq c.length wi hwi' _, rfl, rfl⟩

/-!
## Caption Grouper (`auto_group_captions`, lines 759-793)
-/

/-- The sanitization of line 788:
`sorted(set(b for b in boundaries if 0 < b < len(words)))`. -/
def sanitizeBoundaries (raw : List ℕ) (wordCount : ℕ) : List ℕ :=
  List.insertionSort (· ≤ ·) ((raw.filter (fun b => 0 < b ∧ b < wordCount)).dedup)

/-- The fallback of line 793: `list(range(5, len(words), 5))`. -/
def fallbackBoundaries (wordCount : ℕ) : List ℕ :=
  List.range' 5 ((wordCount - 1) / 5) 5

/-- `auto_group_captions(words)`: the external service's parsed index list is
`some raw`; a failed call (`except` branch) is `none` and falls back to
fixed-size grouping. -/
def auto_group_captions (response : Option (List ℕ)) (wordCount : ℕ) : List ℕ :=
  match response with
  | some raw => sanitizeBoundaries raw wordCount
  | none => fallbackBoundaries wordCount

lemma mem_sanitizeBoundaries (raw : List ℕ) (n i : ℕ) :
    i ∈ sanitizeBoundaries raw n ↔ i ∈ raw ∧ 0 < i ∧ i < n := by
  unfold sanitizeBoundaries
  rw [(List.perm_insertionSort (· ≤ ·) _).mem_iff, List.mem_dedup, List.mem_filter]
  simp

lemma sorted_lt_sanitizeBoundaries (raw : List ℕ) (n : ℕ) :
    List.Sorted (· < ·) (sanitizeBoundaries raw n) := by
  have h1 : List.Sorted (· ≤ ·) (sanitizeBoundaries raw n) :=
    List.sorted_insertionSort _ _
  have h2 : (sanitizeBoundaries raw n).Nodup :=
    (List.perm_insertionSort (· ≤ ·) _).nodup_iff.mpr
      (List.nodup_dedup _)
  rw [List.Sorted] at *
  exact (h1.and h2).imp (fun {a b} hab => lt_of_le_of_ne hab.1 hab.2)

lemma mem_fallbackBoundaries (n i : ℕ) :
    i ∈ fallbackBoundaries n ↔ ∃ k, 1 ≤ k ∧ i = 5 * k ∧ i < n := by
  unfold fallbackBoundaries
  rw [List.mem_range']
  constructor
  · rintro ⟨j, hj, rfl⟩
    have h5 : (j + 1) * 5 ≤ n - 1 := by
      rw [← Nat.le_div_iff_mul_le (by norm_num)]
      omega
    exact ⟨j + 1, by omega, by ring, by omega⟩
  · rintro ⟨k, hk1, rfl, hkn⟩
    refine ⟨k - 1, ?_, by omega⟩
    have h5 : k * 5 ≤ n - 1 := by omega
    have := (Nat.le_div_iff_mul_le (k := 5) (by norm_num)).mpr h5
    omega

/-- C6: the sanitized Caption Boundary Set contains exactly the raw indices
`i` with `0 < i < wordCount`, deduplicated and sorted strictly ascending; on
the concrete raw list `[3, 3, 0, 100, 5]` with 10 words it is `[3, 5]`; and
when the service call fails the result is the deterministic fallback
`5, 10, 15, ...` below the word count. -/
theorem c6_caption_boundary_sanitization :
    (∀ raw n i, i ∈ auto_group_captions (some raw) n ↔ (i ∈ raw ∧ 0 < i ∧ i < n)) ∧
    (∀ raw n, List.Sorted (· < ·) (auto_group_captions (some raw) n)) ∧
    auto_group_captions (some [3, 3, 0, 100, 5]) 10 = [3, 5] ∧
    (∀ n i, i ∈ auto_group_captions none n ↔ ∃ k, 1 ≤ k ∧ i = 5 * k ∧ i < n) := by
  refine ⟨?_, ?_, ?_, ?_⟩
  · intro raw n i
    exact mem_sanitizeBoundaries raw n i
  · intro raw n
    exact sorted_lt_sanitizeBoundaries raw n
  · decide
  · intro n i
    exact mem_fallbackBoundaries n i

end AIVideoStudio
